import Mathlib

/-!
Verification of the array computations performed in the DS_CogNeuro teaching
notebooks.  The notebooks operate on numpy arrays; we embed the relevant
array operations as functions on (nested) lists over a field, mirroring the
numpy calls that appear in the notebook cells (`mean`, broadcast
subtraction, elementwise square, `np.std`, `np.corrcoef`,
`LinearRegression(fit_intercept=False).fit`, epoch extraction).
A channels-by-time recording is a `List (List α)` whose rows are channels;
an epoched recording is a `List (List (List α))` of shape
(n_epochs, n_channels, n_times).
-/

namespace DsCogNeuro

variable {α : Type*}

/-- `np.mean(xs)` of a 1-D array: the sum of the entries divided by their
number. -/
def npMean [Field α] (xs : List α) : α := xs.sum / (xs.length : α)

/-- Elementwise addition of two equal-length vectors (numpy `+`). -/
def vecAdd [Field α] (xs ys : List α) : List α := List.zipWith (· + ·) xs ys

/-- Elementwise subtraction of two equal-length vectors (numpy `-`). -/
def vecSub [Field α] (xs ys : List α) : List α := List.zipWith (· - ·) xs ys

/-- Elementwise square of a vector (numpy `** 2`). -/
def vecSq [Field α] (xs : List α) : List α := xs.map (fun t => t * t)

/-- `np.sum(d, axis=0)` of a 2-D array: the elementwise sum of the rows. -/
def sumAxis0 [Field α] : List (List α) → List α
  | [] => []
  | r :: rs => rs.foldl vecAdd r

/-- `np.mean(d, axis=0)` of a 2-D array: the elementwise mean of the rows,
as in `avg_signal = data.mean(axis=0)` of the referencing notebook. -/
def meanAxis0 [Field α] (d : List (List α)) : List α :=
  (sumAxis0 d).map (fun t => t / (d.length : α))

/-- Broadcast subtraction `d - v` of a vector from every row of a 2-D
array, as in `data - avg_signal`. -/
def subBroadcast [Field α] (d : List (List α)) (v : List α) : List (List α) :=
  d.map (fun r => vecSub r v)

/-- Common average referencing as performed in the notebook:
`avg_signal = data.mean(axis=0)` followed by `data - avg_signal`
(equivalently `mne.set_eeg_reference`, which subtracts the mean across all
channels at each time point from each channel). -/
def car [Field α] (d : List (List α)) : List (List α) :=
  subBroadcast d (meanAxis0 d)

/-- Global field power:  `data_global = np.mean(data_av ** 2, 0)` applied to
a channels-by-time array. -/
def gfp [Field α] (d : List (List α)) : List α :=
  meanAxis0 (d.map vecSq)

/-- Elementwise addition of two equal-shape matrices. -/
def matAdd [Field α] (x y : List (List α)) : List (List α) :=
  List.zipWith vecAdd x y

/-- `np.sum(e, axis=0)` of a 3-D array: elementwise sum of the matrices. -/
def sumEpochs [Field α] : List (List (List α)) → List (List α)
  | [] => []
  | m :: ms => ms.foldl matAdd m

/-- Trial averaging: `mean_epoch = epochs._data.mean(axis=0)`
(equivalently `data_av = np.mean(data, 0)` in the week-4 tutorial): the
elementwise mean of the epochs of a 3-D (n_epochs, n_channels, n_times)
array. -/
def erp [Field α] (e : List (List (List α))) : List (List α) :=
  (sumEpochs e).map (fun r => r.map (fun t => t / (e.length : α)))

/-! ### Basic indexing lemmas for the list model -/

theorem getD_zipWith {β γ : Type*} (f : α → β → γ) (xs : List α) (ys : List β)
    (i : ℕ) (hx : i < xs.length) (hy : i < ys.length) (a : α) (b : β) (c : γ) :
    (List.zipWith f xs ys).getD i c = f (xs.getD i a) (ys.getD i b) := by
  induction xs generalizing ys i with
  | nil => simp at hx
  | cons x xs ih =>
    cases ys with
    | nil => simp at hy
    | cons y ys =>
      cases i with
      | zero => simp
      | succ n =>
        simp only [List.zipWith_cons_cons, List.getD_cons_succ]
        exact ih ys n (by simpa using hx) (by simpa using hy)

theorem getD_map {β : Type*} (f : α → β) (xs : List α) (i : ℕ)
    (h : i < xs.length) (a : α) (b : β) :
    (xs.map f).getD i b = f (xs.getD i a) := by
  induction xs generalizing i with
  | nil => simp at h
  | cons x xs ih =>
    cases i with
    | zero => simp
    | succ n =>
      simp only [List.map_cons, List.getD_cons_succ]
      exact ih n (by simpa using h)

theorem vecAdd_length [Field α] (xs ys : List α) :
    (vecAdd xs ys).length = min xs.length ys.length := by
  simp [vecAdd]

theorem vecAdd_getD [Field α] (xs ys : List α) (i : ℕ)
    (hx : i < xs.length) (hy : i < ys.length) :
    (vecAdd xs ys).getD i 0 = xs.getD i 0 + ys.getD i 0 :=
  getD_zipWith _ xs ys i hx hy 0 0 0

theorem foldl_vecAdd_length [Field α] (rs : List (List α)) (nT : ℕ)
    (hrs : ∀ r ∈ rs, r.length = nT) :
    ∀ acc : List α, acc.length = nT → (rs.foldl vecAdd acc).length = nT := by
  induction rs with
  | nil => intro acc hacc; simpa using hacc
  | cons r rs ih =>
    intro acc hacc
    simp only [List.foldl_cons]
    refine ih (fun s hs => hrs s (List.mem_cons_of_mem r hs)) _ ?_
    rw [vecAdd_length, hacc, hrs r (List.mem_cons_self r rs)]
    simp

theorem foldl_vecAdd_getD [Field α] (rs : List (List α)) (nT i : ℕ)
    (hrs : ∀ r ∈ rs, r.length = nT) (hi : i < nT) :
    ∀ acc : List α, acc.length = nT →
      (rs.foldl vecAdd acc).getD i 0 =
        acc.getD i 0 + (rs.map (fun r => r.getD i 0)).sum := by
  induction rs with
  | nil => intro acc _; simp
  | cons r rs ih =>
    intro acc hacc
    have hr : r.length = nT := hrs r (List.mem_cons_self r rs)
    have hrs' : ∀ s ∈ rs, s.length = nT :=
      fun s hs => hrs s (List.mem_cons_of_mem r hs)
    have hlen : (vecAdd acc r).length = nT := by
      rw [vecAdd_length, hacc, hr]; simp
    simp only [List.foldl_cons, List.map_cons, List.sum_cons]
    rw [ih hrs' (vecAdd acc r) hlen,
      vecAdd_getD acc r i (by omega) (by omega)]
    ring

theorem sumAxis0_length [Field α] (d : List (List α)) (nT : ℕ)
    (hd : d ≠ []) (hrect : ∀ r ∈ d, r.length = nT) :
    (sumAxis0 d).length = nT := by
  cases d with
  | nil => exact absurd rfl hd
  | cons r rs =>
    exact foldl_vecAdd_length rs nT
      (fun s hs => hrect s (List.mem_cons_of_mem r hs)) r
      (hrect r (List.mem_cons_self r rs))

theorem sumAxis0_getD [Field α] (d : List (List α)) (nT i : ℕ)
    (hd : d ≠ []) (hrect : ∀ r ∈ d, r.length = nT) (hi : i < nT) :
    (sumAxis0 d).getD i 0 = (d.map (fun r => r.getD i 0)).sum := by
  cases d with
  | nil => exact absurd rfl hd
  | cons r rs =>
    have hr : r.length = nT := hrect r (List.mem_cons_self r rs)
    have hrs : ∀ s ∈ rs, s.length = nT :=
      fun s hs => hrect s (List.mem_cons_of_mem r hs)
    simp only [sumAxis0, List.map_cons, List.sum_cons]
    rw [foldl_vecAdd_getD rs nT i hrs hi r hr]

theorem meanAxis0_length [Field α] (d : List (List α)) (nT : ℕ)
    (hd : d ≠ []) (hrect : ∀ r ∈ d, r.length = nT) :
    (meanAxis0 d).length = nT := by
  simp [meanAxis0, sumAxis0_length d nT hd hrect]

theorem meanAxis0_getD [Field α] (d : List (List α)) (nT i : ℕ)
    (hd : d ≠ []) (hrect : ∀ r ∈ d, r.length = nT) (hi : i < nT) :
    (meanAxis0 d).getD i 0 =
      (d.map (fun r => r.getD i 0)).sum / (d.length : α) := by
  unfold meanAxis0
  rw [getD_map _ _ i (by rw [sumAxis0_length d nT hd hrect]; exact hi) 0 0,
    sumAxis0_getD d nT i hd hrect hi]

/-- C2: common average referencing subtracts, at every timepoint, the mean
across all channels from each channel. -/
theorem car_entry (d : List (List ℚ)) (nT : ℕ)
    (hrect : ∀ r ∈ d, r.length = nT) (c t : ℕ)
    (hc : c < d.length) (ht : t < nT) :
    ((car d).getD c []).getD t 0 =
      (d.getD c []).getD t 0 -
        (d.map (fun r => r.getD t 0)).sum / (d.length : ℚ) := by
  have hd : d ≠ [] := by
    intro h; rw [h] at hc; simp at hc
  have hmem : d.getD c [] ∈ d := by
    rw [List.getD_eq_getElem d [] hc]
    exact List.getElem_mem hc
  have hrow : (d.getD c []).length = nT := hrect _ hmem
  unfold car subBroadcast
  rw [getD_map _ _ c hc [] []]
  rw [vecSub, getD_zipWith _ _ _ t (by omega)
    (by rw [meanAxis0_length d nT hd hrect]; exact ht) 0 0 0,
    meanAxis0_getD d nT t hd hrect ht]

/-- Witness for C2 on the concrete matrix `[[1, 3], [3, 5]]`. -/
theorem car_entry_witness :
    (∀ r ∈ [[(1 : ℚ), 3], [3, 5]], r.length = 2) ∧
      ((car [[(1 : ℚ), 3], [3, 5]]).getD 0 []).getD 0 0 =
        (([[(1 : ℚ), 3], [3, 5]]).getD 0 []).getD 0 0 -
          (([[(1 : ℚ), 3], [3, 5]]).map (fun r => r.getD 0 0)).sum /
            (([[(1 : ℚ), 3], [3, 5]] : List (List ℚ)).length : ℚ) :=
  ⟨by decide, car_entry [[1, 3], [3, 5]] 2 (by decide) 0 0 (by decide)
    (by decide)⟩

theorem vecSub_length [Field α] (xs ys : List α) :
    (vecSub xs ys).length = min xs.length ys.length := by
  simp [vecSub]

theorem vecSq_length [Field α] (xs : List α) : (vecSq xs).length = xs.length := by
  simp [vecSq]

theorem getD_mem_of_lt {l : List α} {c : ℕ} (hc : c < l.length) (d : α) :
    l.getD c d ∈ l := by
  rw [List.getD_eq_getElem l d hc]
  exact List.getElem_mem hc

/-- C3: the global field power of a channels-by-time matrix is a single
timeseries of length `n_times` whose entry at each timepoint is the mean
across channels of the squared signal value, hence nonnegative. -/
theorem gfp_spec (d : List (List ℚ)) (nT : ℕ) (hd : d ≠ [])
    (hrect : ∀ r ∈ d, r.length = nT) :
    (gfp d).length = nT ∧
      ∀ t, t < nT →
        (gfp d).getD t 0 =
            (d.map (fun r => r.getD t 0 * r.getD t 0)).sum / (d.length : ℚ) ∧
          0 ≤ (gfp d).getD t 0 := by
  have hd2 : d.map vecSq ≠ [] := by simpa using hd
  have hrect2 : ∀ r ∈ d.map vecSq, r.length = nT := by
    intro r hr
    rcases List.mem_map.mp hr with ⟨s, hs, rfl⟩
    rw [vecSq_length]
    exact hrect s hs
  have hentry : ∀ t, t < nT →
      (gfp d).getD t 0 =
        (d.map (fun r => r.getD t 0 * r.getD t 0)).sum / (d.length : ℚ) := by
    intro t ht
    unfold gfp
    rw [meanAxis0_getD (d.map vecSq) nT t hd2 hrect2 ht, List.map_map,
      List.length_map]
    congr 1
    refine congrArg List.sum (List.map_congr_left ?_)
    intro s hs
    simp only [Function.comp]
    exact getD_map _ s t (by rw [hrect s hs]; exact ht) 0 0
  refine ⟨?_, fun t ht => ⟨hentry t ht, ?_⟩⟩
  · unfold gfp
    rw [meanAxis0_length (d.map vecSq) nT hd2 hrect2]
  · rw [hentry t ht]
    refine div_nonneg (List.sum_nonneg ?_) (by positivity)
    intro q hq
    rcases List.mem_map.mp hq with ⟨s, _, rfl⟩
    exact mul_self_nonneg _

/-- Witness for C3 on the concrete matrix `[[1, -2], [3, 4]]`. -/
theorem gfp_spec_witness :
    ([[(1 : ℚ), -2], [3, 4]] : List (List ℚ)) ≠ [] ∧
      (gfp [[(1 : ℚ), -2], [3, 4]]).length = 2 ∧
        ∀ t, t < 2 →
          (gfp [[(1 : ℚ), -2], [3, 4]]).getD t 0 =
              (([[(1 : ℚ), -2], [3, 4]]).map
                (fun r => r.getD t 0 * r.getD t 0)).sum /
                (([[(1 : ℚ), -2], [3, 4]] : List (List ℚ)).length : ℚ) ∧
            0 ≤ (gfp [[(1 : ℚ), -2], [3, 4]]).getD t 0 :=
  ⟨by decide, gfp_spec [[1, -2], [3, 4]] 2 (by decide) (by decide)⟩

theorem matAdd_length [Field α] (x y : List (List α)) :
    (matAdd x y).length = min x.length y.length := by
  simp [matAdd]

theorem matAdd_row_length [Field α] (x y : List (List α)) (nT : ℕ)
    (hx : ∀ r ∈ x, r.length = nT) (hy : ∀ r ∈ y, r.length = nT) :
    ∀ r ∈ matAdd x y, r.length = nT := by
  induction x generalizing y with
  | nil => simp [matAdd]
  | cons a x ih =>
    cases y with
    | nil => simp [matAdd]
    | cons b y =>
      intro r hr
      simp only [matAdd, List.zipWith_cons_cons] at hr
      rcases List.mem_cons.mp hr with h | h
      · subst h
        rw [vecAdd_length, hx a (List.mem_cons_self a x),
          hy b (List.mem_cons_self b y)]
        simp
      · exact ih y (fun s hs => hx s (List.mem_cons_of_mem a hs))
          (fun s hs => hy s (List.mem_cons_of_mem b hs)) r h

theorem matAdd_getD [Field α] (x y : List (List α)) (nC nT c t : ℕ)
    (hxl : x.length = nC) (hyl : y.length = nC)
    (hx : ∀ r ∈ x, r.length = nT) (hy : ∀ r ∈ y, r.length = nT)
    (hc : c < nC) (ht : t < nT) :
    ((matAdd x y).getD c []).getD t 0 =
      ((x.getD c []).getD t 0) + ((y.getD c []).getD t 0) := by
  unfold matAdd
  rw [getD_zipWith vecAdd x y c (by omega) (by omega) [] [] []]
  exact vecAdd_getD _ _ t
    (by rw [hx _ (getD_mem_of_lt (by omega) [])]; exact ht)
    (by rw [hy _ (getD_mem_of_lt (by omega) [])]; exact ht)

theorem foldl_matAdd_shape [Field α] (ms : List (List (List α))) (nC nT : ℕ)
    (hms : ∀ m ∈ ms, m.length = nC ∧ ∀ r ∈ m, r.length = nT) :
    ∀ acc : List (List α), acc.length = nC → (∀ r ∈ acc, r.length = nT) →
      (ms.foldl matAdd acc).length = nC ∧
        ∀ r ∈ ms.foldl matAdd acc, r.length = nT := by
  induction ms with
  | nil => intro acc h1 h2; exact ⟨h1, h2⟩
  | cons m ms ih =>
    intro acc h1 h2
    have hm := hms m (List.mem_cons_self m ms)
    have hms' : ∀ m' ∈ ms, m'.length = nC ∧ ∀ r ∈ m', r.length = nT :=
      fun m' hm' => hms m' (List.mem_cons_of_mem m hm')
    simp only [List.foldl_cons]
    refine ih hms' (matAdd acc m) ?_ ?_
    · rw [matAdd_length, h1, hm.1]; simp
    · exact matAdd_row_length acc m nT h2 hm.2

theorem foldl_matAdd_getD [Field α] (ms : List (List (List α))) (nC nT c t : ℕ)
    (hms : ∀ m ∈ ms, m.length = nC ∧ ∀ r ∈ m, r.length = nT)
    (hc : c < nC) (ht : t < nT) :
    ∀ acc : List (List α), acc.length = nC → (∀ r ∈ acc, r.length = nT) →
      ((ms.foldl matAdd acc).getD c []).getD t 0 =
        ((acc.getD c []).getD t 0) +
          (ms.map (fun m => (m.getD c []).getD t 0)).sum := by
  induction ms with
  | nil => intro acc _ _; simp
  | cons m ms ih =>
    intro acc h1 h2
    have hm := hms m (List.mem_cons_self m ms)
    have hms' : ∀ m' ∈ ms, m'.length = nC ∧ ∀ r ∈ m', r.length = nT :=
      fun m' hm' => hms m' (List.mem_cons_of_mem m hm')
    have hlen : (matAdd acc m).length = nC := by
      rw [matAdd_length, h1, hm.1]; simp
    have hrow : ∀ r ∈ matAdd acc m, r.length = nT :=
      matAdd_row_length acc m nT h2 hm.2
    simp only [List.foldl_cons, List.map_cons, List.sum_cons]
    rw [ih hms' (matAdd acc m) hlen hrow,
      matAdd_getD acc m nC nT c t h1 hm.1 h2 hm.2 hc ht]
    ring

theorem sumEpochs_shape [Field α] (e : List (List (List α))) (nC nT : ℕ)
    (he : e ≠ []) (hshape : ∀ m ∈ e, m.length = nC ∧ ∀ r ∈ m, r.length = nT) :
    (sumEpochs e).length = nC ∧ ∀ r ∈ sumEpochs e, r.length = nT := by
  cases e with
  | nil => exact absurd rfl he
  | cons m ms =>
    have hm := hshape m (List.mem_cons_self m ms)
    exact foldl_matAdd_shape ms nC nT
      (fun m' hm' => hshape m' (List.mem_cons_of_mem m hm')) m hm.1 hm.2

theorem sumEpochs_getD [Field α] (e : List (List (List α))) (nC nT c t : ℕ)
    (he : e ≠ []) (hshape : ∀ m ∈ e, m.length = nC ∧ ∀ r ∈ m, r.length = nT)
    (hc : c < nC) (ht : t < nT) :
    ((sumEpochs e).getD c []).getD t 0 =
      (e.map (fun m => (m.getD c []).getD t 0)).sum := by
  cases e with
  | nil => exact absurd rfl he
  | cons m ms =>
    have hm := hshape m (List.mem_cons_self m ms)
    simp only [sumEpochs, List.map_cons, List.sum_cons]
    rw [foldl_matAdd_getD ms nC nT c t
      (fun m' hm' => hshape m' (List.mem_cons_of_mem m hm')) hc ht m hm.1 hm.2]

/-- C4: the event-related potential of a non-empty (n_epochs, n_channels,
n_times) epochs array is the elementwise mean over the trial axis: it has
shape (n_channels, n_times) and its entry at (c, t) is the arithmetic mean
over epochs of the value at (epoch, c, t). -/
theorem erp_spec (e : List (List (List ℚ))) (nC nT : ℕ) (he : e ≠ [])
    (hshape : ∀ m ∈ e, m.length = nC ∧ ∀ r ∈ m, r.length = nT) :
    (erp e).length = nC ∧ (∀ r ∈ erp e, r.length = nT) ∧
      ∀ c t, c < nC → t < nT →
        ((erp e).getD c []).getD t 0 =
          (e.map (fun m => (m.getD c []).getD t 0)).sum / (e.length : ℚ) := by
  obtain ⟨hslen, hsrow⟩ := sumEpochs_shape e nC nT he hshape
  refine ⟨?_, ?_, ?_⟩
  · simp [erp, hslen]
  · intro r hr
    rcases List.mem_map.mp hr with ⟨s, hs, rfl⟩
    rw [List.length_map]
    exact hsrow s hs
  · intro c t hc ht
    unfold erp
    rw [getD_map _ _ c (by omega) [] []]
    rw [getD_map _ _ t
      (by rw [hsrow _ (getD_mem_of_lt (by omega) [])]; exact ht) 0 0]
    rw [sumEpochs_getD e nC nT c t he hshape hc ht]

/-- Witness for C4 on the concrete epochs array
`[[[1, 2], [3, 4]], [[5, 6], [7, 8]]]`. -/
theorem erp_spec_witness :
    ([[[(1 : ℚ), 2], [3, 4]], [[5, 6], [7, 8]]] : List (List (List ℚ))) ≠ [] ∧
      (erp [[[(1 : ℚ), 2], [3, 4]], [[5, 6], [7, 8]]]).length = 2 ∧
        (∀ r ∈ erp [[[(1 : ℚ), 2], [3, 4]], [[5, 6], [7, 8]]],
          r.length = 2) ∧
        ∀ c t, c < 2 → t < 2 →
          ((erp [[[(1 : ℚ), 2], [3, 4]], [[5, 6], [7, 8]]]).getD c []).getD t 0 =
            (([[[(1 : ℚ), 2], [3, 4]], [[5, 6], [7, 8]]]).map
              (fun m => (m.getD c []).getD t 0)).sum /
              (([[[(1 : ℚ), 2], [3, 4]], [[5, 6], [7, 8]]] :
                List (List (List ℚ))).length : ℚ) :=
  ⟨by decide,
    erp_spec [[[1, 2], [3, 4]], [[5, 6], [7, 8]]] 2 2 (by decide) (by decide)⟩

theorem car_length [Field α] (d : List (List α)) : (car d).length = d.length := by
  simp [car, subBroadcast]

theorem car_row_length [Field α] (d : List (List α)) (nT : ℕ) (hd : d ≠ [])
    (hrect : ∀ r ∈ d, r.length = nT) : ∀ r ∈ car d, r.length = nT := by
  intro r hr
  rcases List.mem_map.mp hr with ⟨s, hs, rfl⟩
  rw [vecSub_length, hrect s hs, meanAxis0_length d nT hd hrect]
  simp

theorem sum_map_sub_const [Field α] (d : List (List α)) (f : List α → α) (M : α) :
    (d.map (fun r => f r - M)).sum = (d.map f).sum - (d.length : α) * M := by
  induction d with
  | nil => simp
  | cons r rs ih =>
    simp only [List.map_cons, List.sum_cons, List.length_cons, ih]
    push_cast
    ring

theorem vecSub_replicate_zero [Field α] (r : List α) (n : ℕ) (h : r.length = n) :
    vecSub r (List.replicate n 0) = r := by
  induction r generalizing n with
  | nil => cases n <;> simp [vecSub]
  | cons a rs ih =>
    cases n with
    | zero => simp at h
    | succ m =>
      simp only [List.replicate_succ, vecSub, List.zipWith_cons_cons, sub_zero]
      congr 1
      exact ih m (by simpa using h)

theorem car_mean_zero (d : List (List ℚ)) (nT : ℕ) (hd : d ≠ [])
    (hrect : ∀ r ∈ d, r.length = nT) :
    ∀ t, t < nT → (meanAxis0 (car d)).getD t 0 = 0 := by
  intro t ht
  have hcd : car d ≠ [] := by
    intro h
    apply hd
    have := car_length (α := ℚ) d
    rw [h] at this
    exact List.length_eq_zero.mp this.symm
  have hcrow := car_row_length d nT hd hrect
  have hn : (d.length : ℚ) ≠ 0 := by
    have : d.length ≠ 0 := fun h => hd (List.length_eq_zero.mp h)
    exact_mod_cast this
  rw [meanAxis0_getD (car d) nT t hcd hcrow ht]
  have hnum : ((car d).map (fun r => r.getD t 0)).sum = 0 := by
    unfold car subBroadcast
    rw [List.map_map]
    have hcongr :
        d.map ((fun r => r.getD t 0) ∘ fun r => vecSub r (meanAxis0 d)) =
          d.map (fun r => r.getD t 0 - (meanAxis0 d).getD t 0) := by
      refine List.map_congr_left ?_
      intro s hs
      simp only [Function.comp]
      exact getD_zipWith _ s (meanAxis0 d) t
        (by rw [hrect s hs]; exact ht)
        (by rw [meanAxis0_length d nT hd hrect]; exact ht) 0 0 0
    rw [hcongr, sum_map_sub_const, meanAxis0_getD d nT t hd hrect ht,
      mul_div_cancel₀ _ hn, sub_self]
  rw [hnum, zero_div]

/-- C8: common average referencing is idempotent: the referenced data has
cross-channel mean exactly zero at every timepoint, and applying the
operation a second time returns the data unchanged. -/
theorem car_idempotent (d : List (List ℚ)) (nT : ℕ) (hd : d ≠ [])
    (hrect : ∀ r ∈ d, r.length = nT) :
    (∀ t, t < nT → (meanAxis0 (car d)).getD t 0 = 0) ∧ car (car d) = car d := by
  have hcd : car d ≠ [] := by
    intro h
    apply hd
    have := car_length (α := ℚ) d
    rw [h] at this
    exact List.length_eq_zero.mp this.symm
  have hcrow := car_row_length d nT hd hrect
  have hzero := car_mean_zero d nT hd hrect
  refine ⟨hzero, ?_⟩
  have hmean : meanAxis0 (car d) = List.replicate nT 0 := by
    apply List.ext_getElem
    · rw [meanAxis0_length (car d) nT hcd hcrow, List.length_replicate]
    · intro i h1 h2
      have hi : i < nT := by
        rw [meanAxis0_length (car d) nT hcd hcrow] at h1
        exact h1
      rw [← List.getD_eq_getElem _ 0 h1, hzero i hi, List.getElem_replicate]
  show subBroadcast (car d) (meanAxis0 (car d)) = car d
  rw [hmean]
  unfold subBroadcast
  have : (car d).map (fun r => vecSub r (List.replicate nT 0)) =
      (car d).map (fun r => r) := by
    refine List.map_congr_left ?_
    intro s hs
    exact vecSub_replicate_zero s nT (hcrow s hs)
  rw [this, List.map_id']

/-- Witness for C8 on the concrete matrix `[[1, 3], [3, 5]]`. -/
theorem car_idempotent_witness :
    ([[(1 : ℚ), 3], [3, 5]] : List (List ℚ)) ≠ [] ∧
      (∀ t, t < 2 → (meanAxis0 (car [[(1 : ℚ), 3], [3, 5]])).getD t 0 = 0) ∧
      car (car [[(1 : ℚ), 3], [3, 5]]) = car [[(1 : ℚ), 3], [3, 5]] :=
  ⟨by decide, car_idempotent [[1, 3], [3, 5]] 2 (by decide) (by decide)⟩

/-! ### Regression (scikit-learn `LinearRegression(fit_intercept=False)`) -/

/-- Dot product of two equal-length vectors. -/
def dot [Field α] (xs ys : List α) : α := (List.zipWith (· * ·) xs ys).sum

/-- The coefficient fitted by
`LinearRegression(fit_intercept=False).fit(a, b)` with a single feature:
the closed form of the unique least-squares solution (its minimization
property is proved below). -/
def fitNoIntercept [Field α] (a b : List α) : α := dot a b / dot a a

/-- Residual sum of squares of the no-intercept linear model with weight
`w`, the objective that `LinearRegression` minimizes. -/
def rss [Field α] (w : α) (a b : List α) : α :=
  (List.zipWith (fun x y => (y - w * x) * (y - w * x)) a b).sum

theorem dot_cons [Field α] (a b : α) (xs ys : List α) :
    dot (a :: xs) (b :: ys) = a * b + dot xs ys := by
  simp [dot]

theorem rss_cons [Field α] (w a b : α) (xs ys : List α) :
    rss w (a :: xs) (b :: ys) = (b - w * a) * (b - w * a) + rss w xs ys := by
  simp [rss]

theorem dot_self_nonneg [LinearOrderedField α] (x : List α) : 0 ≤ dot x x := by
  induction x with
  | nil => simp [dot]
  | cons a xs ih =>
    rw [dot_cons]
    have := mul_self_nonneg a
    linarith

theorem rss_eq [Field α] (w : α) (a b : List α) (h : a.length = b.length) :
    rss w a b = dot b b - 2 * w * dot a b + w * w * dot a a := by
  induction a generalizing b with
  | nil =>
    cases b with
    | nil => simp [rss, dot]
    | cons y ys => simp at h
  | cons x xs ih =>
    cases b with
    | nil => simp at h
    | cons y ys =>
      have h' : xs.length = ys.length := by simpa using h
      rw [rss_cons, dot_cons, dot_cons, dot_cons, ih ys h']
      ring

/-- C6: with a single feature and no intercept, the fitted coefficient
equals `dot a b / dot a a` and minimizes the residual sum of squares
`rss w a b` over all weights `w`. -/
theorem fit_no_intercept_spec (a b : List ℚ) (hlen : a.length = b.length)
    (hA : dot a a ≠ 0) :
    fitNoIntercept a b = dot a b / dot a a ∧
      ∀ w, rss (fitNoIntercept a b) a b ≤ rss w a b := by
  have hApos : 0 < dot a a := lt_of_le_of_ne (dot_self_nonneg a) (Ne.symm hA)
  refine ⟨rfl, ?_⟩
  intro w
  rw [rss_eq _ a b hlen, rss_eq _ a b hlen]
  unfold fitNoIntercept
  set S := dot a b with hS
  set A := dot a a with hAdef
  have hkey : w * w * A - 2 * w * S -
      ((S / A) * (S / A) * A - 2 * (S / A) * S) =
        (w * A - S) * (w * A - S) / A := by
    field_simp
    ring
  have hpos : 0 ≤ (w * A - S) * (w * A - S) / A :=
    div_nonneg (mul_self_nonneg _) hApos.le
  linarith

/-- Witness for C6 on `a = [1, 2]`, `b = [2, 5]`. -/
theorem fit_no_intercept_witness :
    ([(1 : ℚ), 2] : List ℚ).length = ([(2 : ℚ), 5] : List ℚ).length ∧
      dot [(1 : ℚ), 2] [(1 : ℚ), 2] ≠ 0 ∧
      (fitNoIntercept [(1 : ℚ), 2] [(2 : ℚ), 5] =
          dot [(1 : ℚ), 2] [(2 : ℚ), 5] / dot [(1 : ℚ), 2] [(1 : ℚ), 2] ∧
        ∀ w, rss (fitNoIntercept [(1 : ℚ), 2] [(2 : ℚ), 5])
            [(1 : ℚ), 2] [(2 : ℚ), 5] ≤ rss w [(1 : ℚ), 2] [(2 : ℚ), 5]) :=
  ⟨by decide, by norm_num [dot],
    fit_no_intercept_spec [1, 2] [2, 5] (by decide) (by norm_num [dot])⟩

/-! ### Epoch extraction -/

/-- Modelled from the spec: the epoch extraction itself
(`mne.preprocessing.create_eog_epochs` / `mne.Epochs`) is MNE library code
that is not part of this repository.  Following the notebook's description
— "define a window around each timepoint; combine these windows, so our
data is now shape (n_eyeblinks, n_channels, length_window)", with
"1 second of time * n samples per second = total number of timepoints" —
each event index is expanded, on every channel, into the fixed window of
`nSeconds * sfreq` consecutive samples starting `pre` samples before the
event. -/
def extractEpochs (raw : List (List ℚ)) (events : List ℕ)
    (pre nSeconds sfreq : ℕ) : List (List (List ℚ)) :=
  events.map (fun e => raw.map (fun ch => (ch.drop (e - pre)).take (nSeconds * sfreq)))

/-- C7: every epoch is a fixed-length window: the extracted data is a 3-D
array of shape (n_epochs, n_channels, n_times) in which every epoch has the
same number of timepoints, namely the window duration in seconds times the
sampling frequency. -/
theorem extractEpochs_shape (raw : List (List ℚ)) (events : List ℕ)
    (pre nSeconds sfreq nT : ℕ) (hch : ∀ ch ∈ raw, ch.length = nT)
    (hev : ∀ e ∈ events, e - pre + nSeconds * sfreq ≤ nT) :
    (extractEpochs raw events pre nSeconds sfreq).length = events.length ∧
      ∀ ep ∈ extractEpochs raw events pre nSeconds sfreq,
        ep.length = raw.length ∧ ∀ ch ∈ ep, ch.length = nSeconds * sfreq := by
  refine ⟨by simp [extractEpochs], ?_⟩
  intro ep hep
  rcases List.mem_map.mp hep with ⟨e, he, rfl⟩
  refine ⟨by simp, ?_⟩
  intro ch hmem
  rcases List.mem_map.mp hmem with ⟨c, hc, rfl⟩
  rw [List.length_take, List.length_drop, hch c hc]
  have := hev e he
  omega

/-- Witness for C7 with two channels of four samples, one event at index 2,
a window starting one sample before the event, one second long at two
samples per second. -/
theorem extractEpochs_witness :
    (∀ e ∈ [2], e - 1 + 1 * 2 ≤ 4) ∧
      (extractEpochs [[(1 : ℚ), 2, 3, 4], [5, 6, 7, 8]] [2] 1 1 2).length =
          ([2] : List ℕ).length ∧
        ∀ ep ∈ extractEpochs [[(1 : ℚ), 2, 3, 4], [5, 6, 7, 8]] [2] 1 1 2,
          ep.length = ([[(1 : ℚ), 2, 3, 4], [5, 6, 7, 8]] :
              List (List ℚ)).length ∧
            ∀ ch ∈ ep, ch.length = 1 * 2 :=
  ⟨by decide,
    extractEpochs_shape [[1, 2, 3, 4], [5, 6, 7, 8]] [2] 1 1 2 4
      (by decide) (by decide)⟩

/-! ### Statistics over the reals (`np.std`, `np.corrcoef`, `scale`) -/

/-- Deviations from the mean: `xs - np.mean(xs)`. -/
def center [Field α] (xs : List α) : List α := xs.map (fun t => t - npMean xs)

/-- The population variance computed inside `np.std` (default `ddof=0`):
the mean of the squared deviations from the mean. -/
def npVar [Field α] (xs : List α) : α := npMean (vecSq (center xs))

/-- `np.std(xs)`: the square root of the mean squared deviation. -/
noncomputable def npStd (xs : List ℝ) : ℝ := Real.sqrt (npVar xs)

/-- The notebook's own function
`def standard_error(data): return np.std(data) / np.sqrt(data.shape[0])`
on a 1-D array. -/
noncomputable def standard_error (d : List ℝ) : ℝ :=
  npStd d / Real.sqrt (d.length : ℝ)

/-- The notebook's `standard_error` on a 2-D array: `np.std` flattens its
input, while `data.shape[0]` is the first-axis length. -/
noncomputable def standard_error2 (d : List (List ℝ)) : ℝ :=
  npStd d.flatten / Real.sqrt (d.length : ℝ)

/-- Definition following the spec's words, for comparison with the code's
`standard_error`: the population standard deviation of the `N` samples,
`sqrt((Σ_i (x_i - mean)^2) / N)`. -/
noncomputable def specPopulationStd (xs : List ℝ) : ℝ :=
  Real.sqrt
    ((∑ i : Fin xs.length, (xs.get i - xs.sum / (xs.length : ℝ)) ^ 2) /
      (xs.length : ℝ))

theorem list_sum_map_get {β : Type*} [AddCommMonoid β] (f : α → β)
    (xs : List α) : (xs.map f).sum = ∑ i : Fin xs.length, f (xs.get i) := by
  conv_lhs => rw [← List.ofFn_get xs]
  rw [List.map_ofFn, List.sum_ofFn]
  simp [Function.comp]

theorem center_length [Field α] (xs : List α) :
    (center xs).length = xs.length := by
  simp [center]

theorem zipWith_mul_self [Field α] (v : List α) :
    List.zipWith (· * ·) v v = v.map (fun t => t * t) := by
  induction v with
  | nil => simp
  | cons a vs ih => simp [ih]

theorem dot_self_eq_vecSq_sum [Field α] (v : List α) :
    dot v v = (vecSq v).sum := by
  unfold dot vecSq
  rw [zipWith_mul_self]

theorem npVar_eq_dot [Field α] (xs : List α) :
    npVar xs = dot (center xs) (center xs) / (xs.length : α) := by
  unfold npVar npMean
  rw [dot_self_eq_vecSq_sum, vecSq_length, center_length]

theorem npVar_eq_sum (xs : List ℝ) :
    npVar xs =
      (∑ i : Fin xs.length, (xs.get i - xs.sum / (xs.length : ℝ)) ^ 2) /
        (xs.length : ℝ) := by
  rw [npVar_eq_dot, dot_self_eq_vecSq_sum]
  congr 1
  unfold vecSq center npMean
  rw [List.map_map, list_sum_map_get]
  refine Finset.sum_congr rfl ?_
  intro i _
  simp only [Function.comp]
  ring

theorem npStd_eq_spec (xs : List ℝ) : npStd xs = specPopulationStd xs := by
  unfold npStd specPopulationStd
  rw [npVar_eq_sum]

/-- C5: the notebook's `standard_error` returns the population standard
deviation of the samples divided by the square root of `N`; on
multi-dimensional input it is the standard deviation of the flattened array
divided by the square root of the first-axis length. -/
theorem standard_error_spec (xs : List ℝ) (hx : xs ≠ [])
    (d : List (List ℝ)) (hd : d ≠ []) :
    standard_error xs = specPopulationStd xs / Real.sqrt (xs.length : ℝ) ∧
      standard_error2 d =
        specPopulationStd d.flatten / Real.sqrt (d.length : ℝ) := by
  constructor
  · unfold standard_error
    rw [npStd_eq_spec]
  · unfold standard_error2
    rw [npStd_eq_spec]

/-- Witness for C5 on `xs = [1, 2]` and `d = [[1], [2]]`. -/
theorem standard_error_witness :
    ([(1 : ℝ), 2] : List ℝ) ≠ [] ∧ ([[(1 : ℝ)], [2]] : List (List ℝ)) ≠ [] ∧
      (standard_error [(1 : ℝ), 2] =
          specPopulationStd [(1 : ℝ), 2] /
            Real.sqrt (([(1 : ℝ), 2] : List ℝ).length : ℝ) ∧
        standard_error2 [[(1 : ℝ)], [2]] =
          specPopulationStd ([[(1 : ℝ)], [2]] : List (List ℝ)).flatten /
            Real.sqrt (([[(1 : ℝ)], [2]] : List (List ℝ)).length : ℝ)) :=
  ⟨by simp, by simp,
    standard_error_spec [1, 2] (by simp) [[1], [2]] (by simp)⟩

/-- The covariance computed inside `np.corrcoef` (via `np.cov`, default
`ddof`): the dot product of the centered rows divided by `N - 1`. -/
def npCov [Field α] (xs ys : List α) : α :=
  dot (center xs) (center ys) / ((xs.length : α) - 1)

/-- One entry of `np.corrcoef`: the covariance normalized by the square
roots of the two variances. -/
noncomputable def corrEntry (xs ys : List ℝ) : ℝ :=
  npCov xs ys / (Real.sqrt (npCov xs xs) * Real.sqrt (npCov ys ys))

/-- `cc_mat = np.corrcoef(data._data)`: the channels-by-channels matrix of
correlation coefficients between rows. -/
noncomputable def corrcoef (d : List (List ℝ)) : List (List ℝ) :=
  d.map (fun r => d.map (fun s => corrEntry r s))

theorem dot_comm [Field α] (x y : List α) : dot x y = dot y x := by
  induction x generalizing y with
  | nil => simp [dot]
  | cons a xs ih =>
    cases y with
    | nil => simp [dot]
    | cons b ys =>
      rw [dot_cons, dot_cons, mul_comm, ih ys]

theorem dot_sq_le [LinearOrderedField α] (x y : List α) :
    dot x y * dot x y ≤ dot x x * dot y y := by
  induction x generalizing y with
  | nil => simp [dot]
  | cons a xs ih =>
    cases y with
    | nil => simp [dot]
    | cons b ys =>
      have hA := dot_self_nonneg xs
      have hB := dot_self_nonneg ys
      have hD := ih ys
      rw [dot_cons, dot_cons, dot_cons]
      rcases eq_or_lt_of_le hB with hB0 | hBpos
      · have hD0 : dot xs ys = 0 := by
          nlinarith [mul_self_nonneg (dot xs ys)]
        rw [hD0, ← hB0]
        nlinarith [mul_self_nonneg (a * b), mul_nonneg hA (mul_self_nonneg b)]
      · nlinarith [sq_nonneg (a * dot ys ys - b * dot xs ys),
          mul_nonneg (add_nonneg (mul_self_nonneg b) hB) (sub_nonneg.mpr hD),
          hBpos]

theorem npVar_nonneg (xs : List ℝ) : 0 ≤ npVar xs := by
  rw [npVar_eq_dot]
  exact div_nonneg (dot_self_nonneg _) (Nat.cast_nonneg _)

theorem npVar_ne_zero_facts (xs : List ℝ) (h : npVar xs ≠ 0) :
    0 < dot (center xs) (center xs) ∧ 2 ≤ xs.length := by
  have hS : dot (center xs) (center xs) ≠ 0 := by
    intro h0
    apply h
    rw [npVar_eq_dot, h0, zero_div]
  have hSpos : 0 < dot (center xs) (center xs) :=
    lt_of_le_of_ne (dot_self_nonneg _) (Ne.symm hS)
  refine ⟨hSpos, ?_⟩
  match xs with
  | [] => exact absurd (by simp [center, dot]) hS
  | [a] => exact absurd (by simp [center, dot, npMean]) hS
  | a :: b :: rest => simp

theorem corrEntry_eq (xs ys : List ℝ) (hx : npVar xs ≠ 0) (hy : npVar ys ≠ 0)
    (hl : xs.length = ys.length) :
    corrEntry xs ys = dot (center xs) (center ys) /
      (Real.sqrt (dot (center xs) (center xs)) *
        Real.sqrt (dot (center ys) (center ys))) := by
  obtain ⟨hxS, hxn⟩ := npVar_ne_zero_facts xs hx
  obtain ⟨hyS, _⟩ := npVar_ne_zero_facts ys hy
  unfold corrEntry npCov
  rw [← hl]
  have hk : (0 : ℝ) < (xs.length : ℝ) - 1 := by
    have h2 : (2 : ℝ) ≤ (xs.length : ℝ) := by exact_mod_cast hxn
    linarith
  rw [Real.sqrt_div (dot_self_nonneg _), Real.sqrt_div (dot_self_nonneg _)]
  have hu : Real.sqrt (dot (center xs) (center xs)) ≠ 0 :=
    (Real.sqrt_pos.mpr hxS).ne'
  have hv : Real.sqrt (dot (center ys) (center ys)) ≠ 0 :=
    (Real.sqrt_pos.mpr hyS).ne'
  have hw : Real.sqrt ((xs.length : ℝ) - 1) ≠ 0 := (Real.sqrt_pos.mpr hk).ne'
  have hww : Real.sqrt ((xs.length : ℝ) - 1) *
      Real.sqrt ((xs.length : ℝ) - 1) = (xs.length : ℝ) - 1 :=
    Real.mul_self_sqrt hk.le
  rw [← hww]
  field_simp

theorem corrEntry_comm (xs ys : List ℝ) (hl : xs.length = ys.length) :
    corrEntry xs ys = corrEntry ys xs := by
  unfold corrEntry npCov
  rw [dot_comm (center xs) (center ys), hl, mul_comm]

theorem corrEntry_self (xs : List ℝ) (hx : npVar xs ≠ 0) :
    corrEntry xs xs = 1 := by
  obtain ⟨hxS, _⟩ := npVar_ne_zero_facts xs hx
  rw [corrEntry_eq xs xs hx hx rfl,
    Real.mul_self_sqrt (dot_self_nonneg _), div_self hxS.ne']

theorem corrEntry_bounds (xs ys : List ℝ) (hx : npVar xs ≠ 0)
    (hy : npVar ys ≠ 0) (hl : xs.length = ys.length) :
    -1 ≤ corrEntry xs ys ∧ corrEntry xs ys ≤ 1 := by
  obtain ⟨hxS, _⟩ := npVar_ne_zero_facts xs hx
  obtain ⟨hyS, _⟩ := npVar_ne_zero_facts ys hy
  rw [corrEntry_eq xs ys hx hy hl]
  have hP : (0 : ℝ) < Real.sqrt (dot (center xs) (center xs)) *
      Real.sqrt (dot (center ys) (center ys)) :=
    mul_pos (Real.sqrt_pos.mpr hxS) (Real.sqrt_pos.mpr hyS)
  have hcs := dot_sq_le (center xs) (center ys)
  have habs : |dot (center xs) (center ys)| ≤
      Real.sqrt (dot (center xs) (center xs)) *
        Real.sqrt (dot (center ys) (center ys)) := by
    rw [← Real.sqrt_mul_self_eq_abs, ← Real.sqrt_mul (dot_self_nonneg _)]
    exact Real.sqrt_le_sqrt hcs
  obtain ⟨hlo, hhi⟩ := abs_le.mp habs
  constructor
  · rw [le_div_iff₀ hP]
    linarith
  · rw [div_le_one hP]
    exact hhi

/-- C9: for a matrix all of whose rows have nonzero variance, the
correlation matrix is square of shape (n_channels, n_channels), symmetric,
has every diagonal entry equal to 1, and every entry in [-1, 1]. -/
theorem corrcoef_spec (d : List (List ℝ)) (nT : ℕ)
    (hrect : ∀ r ∈ d, r.length = nT) (hvar : ∀ r ∈ d, npVar r ≠ 0) :
    (corrcoef d).length = d.length ∧
      (∀ row ∈ corrcoef d, row.length = d.length) ∧
      (∀ i j, i < d.length → j < d.length →
        ((corrcoef d).getD i []).getD j 0 =
            ((corrcoef d).getD j []).getD i 0 ∧
          -1 ≤ ((corrcoef d).getD i []).getD j 0 ∧
          ((corrcoef d).getD i []).getD j 0 ≤ 1) ∧
      ∀ i, i < d.length → ((corrcoef d).getD i []).getD i 0 = 1 := by
  have hentry : ∀ i j, i < d.length → j < d.length →
      ((corrcoef d).getD i []).getD j 0 =
        corrEntry (d.getD i []) (d.getD j []) := by
    intro i j hi hj
    unfold corrcoef
    rw [getD_map _ _ i hi [] [], getD_map _ _ j hj [] 0]
  refine ⟨by simp [corrcoef], ?_, ?_, ?_⟩
  · intro row hrow
    rcases List.mem_map.mp hrow with ⟨s, _, rfl⟩
    simp
  · intro i j hi hj
    have hli : (d.getD i []).length = nT := hrect _ (getD_mem_of_lt hi [])
    have hlj : (d.getD j []).length = nT := hrect _ (getD_mem_of_lt hj [])
    have hvi : npVar (d.getD i []) ≠ 0 := hvar _ (getD_mem_of_lt hi [])
    have hvj : npVar (d.getD j []) ≠ 0 := hvar _ (getD_mem_of_lt hj [])
    refine ⟨?_, ?_⟩
    · rw [hentry i j hi hj, hentry j i hj hi]
      exact corrEntry_comm _ _ (by rw [hli, hlj])
    · rw [hentry i j hi hj]
      exact corrEntry_bounds _ _ hvi hvj (by rw [hli, hlj])
  · intro i hi
    rw [hentry i i hi hi]
    exact corrEntry_self _ (hvar _ (getD_mem_of_lt hi []))

/-- Witness for C9 on the concrete matrix `[[0, 1], [1, 0]]`. -/
theorem corrcoef_witness :
    (∀ r ∈ [[(0 : ℝ), 1], [1, 0]], r.length = 2) ∧
      (∀ r ∈ [[(0 : ℝ), 1], [1, 0]], npVar r ≠ 0) ∧
      ((corrcoef [[(0 : ℝ), 1], [1, 0]]).length =
          ([[(0 : ℝ), 1], [1, 0]] : List (List ℝ)).length ∧
        (∀ row ∈ corrcoef [[(0 : ℝ), 1], [1, 0]],
          row.length = ([[(0 : ℝ), 1], [1, 0]] : List (List ℝ)).length) ∧
        (∀ i j, i < ([[(0 : ℝ), 1], [1, 0]] : List (List ℝ)).length →
          j < ([[(0 : ℝ), 1], [1, 0]] : List (List ℝ)).length →
          ((corrcoef [[(0 : ℝ), 1], [1, 0]]).getD i []).getD j 0 =
              ((corrcoef [[(0 : ℝ), 1], [1, 0]]).getD j []).getD i 0 ∧
            -1 ≤ ((corrcoef [[(0 : ℝ), 1], [1, 0]]).getD i []).getD j 0 ∧
            ((corrcoef [[(0 : ℝ), 1], [1, 0]]).getD i []).getD j 0 ≤ 1) ∧
        ∀ i, i < ([[(0 : ℝ), 1], [1, 0]] : List (List ℝ)).length →
          ((corrcoef [[(0 : ℝ), 1], [1, 0]]).getD i []).getD i 0 = 1) := by
  have hv : ∀ r ∈ [[(0 : ℝ), 1], [1, 0]], npVar r ≠ 0 := by
    intro r hr
    rcases List.mem_cons.mp hr with h | h
    · subst h
      norm_num [npVar, npMean, center, vecSq]
    · rcases List.mem_cons.mp h with h' | h'
      · subst h'
        norm_num [npVar, npMean, center, vecSq]
      · simp at h'
  exact ⟨by simp, hv, corrcoef_spec [[0, 1], [1, 0]] 2 (by simp) hv⟩

/-- Conversion to standard units as performed in the notebook
(`a_scaled = (a - np.mean(a)) / np.std(a)`, equivalently
`sklearn.preprocessing.scale`). -/
noncomputable def scaleList (xs : List ℝ) : List ℝ :=
  xs.map (fun t => (t - npMean xs) / npStd xs)

theorem scaleList_eq (xs : List ℝ) :
    scaleList xs = (center xs).map (fun t => t / npStd xs) := by
  unfold scaleList center
  rw [List.map_map]
  simp [Function.comp]

theorem dot_map_div [Field α] (x y : List α) (c k : α) :
    dot (x.map (fun t => t / c)) (y.map (fun t => t / k)) =
      dot x y / (c * k) := by
  induction x generalizing y with
  | nil => simp [dot]
  | cons a xs ih =>
    cases y with
    | nil => simp [dot]
    | cons b ys =>
      simp only [List.map_cons]
      rw [dot_cons, dot_cons, ih ys, div_mul_div_comm, ← add_div]

/-- C10: after rescaling both signals to mean 0 and variance 1, the
no-intercept least-squares coefficient fitted from scaled `a` to scaled `b`
equals the Pearson correlation coefficient (the `np.corrcoef` entry) of the
original signals. -/
theorem scaled_fit_eq_corr (a b : List ℝ) (hl : a.length = b.length)
    (ha : npVar a ≠ 0) (hb : npVar b ≠ 0) :
    fitNoIntercept (scaleList a) (scaleList b) = corrEntry a b := by
  obtain ⟨haS, han⟩ := npVar_ne_zero_facts a ha
  obtain ⟨hbS, _⟩ := npVar_ne_zero_facts b hb
  have hn : (0 : ℝ) < (a.length : ℝ) := by
    have h2 : (2 : ℝ) ≤ (a.length : ℝ) := by exact_mod_cast han
    linarith
  unfold fitNoIntercept
  rw [scaleList_eq, scaleList_eq, dot_map_div, dot_map_div,
    corrEntry_eq a b ha hb hl]
  have hna : npStd a =
      Real.sqrt (dot (center a) (center a)) / Real.sqrt (a.length : ℝ) := by
    unfold npStd
    rw [npVar_eq_dot, Real.sqrt_div (dot_self_nonneg _)]
  have hnb : npStd b =
      Real.sqrt (dot (center b) (center b)) / Real.sqrt (a.length : ℝ) := by
    unfold npStd
    rw [npVar_eq_dot, Real.sqrt_div (dot_self_nonneg _), hl]
  have hu : Real.sqrt (dot (center a) (center a)) ≠ 0 :=
    (Real.sqrt_pos.mpr haS).ne'
  have hv : Real.sqrt (dot (center b) (center b)) ≠ 0 :=
    (Real.sqrt_pos.mpr hbS).ne'
  have hz : Real.sqrt (a.length : ℝ) ≠ 0 := (Real.sqrt_pos.mpr hn).ne'
  have huu : Real.sqrt (dot (center a) (center a)) *
      Real.sqrt (dot (center a) (center a)) = dot (center a) (center a) :=
    Real.mul_self_sqrt (dot_self_nonneg _)
  rw [hna, hnb, ← huu]
  field_simp
  ring

/-- Witness for C10 on `a = [1, 2, 3]`, `b = [1, 3, 2]`. -/
theorem scaled_fit_eq_corr_witness :
    ([(1 : ℝ), 2, 3] : List ℝ).length = ([(1 : ℝ), 3, 2] : List ℝ).length ∧
      npVar [(1 : ℝ), 2, 3] ≠ 0 ∧ npVar [(1 : ℝ), 3, 2] ≠ 0 ∧
      fitNoIntercept (scaleList [(1 : ℝ), 2, 3]) (scaleList [(1 : ℝ), 3, 2]) =
        corrEntry [(1 : ℝ), 2, 3] [(1 : ℝ), 3, 2] := by
  have ha : npVar [(1 : ℝ), 2, 3] ≠ 0 := by
    norm_num [npVar, npMean, center, vecSq]
  have hb : npVar [(1 : ℝ), 3, 2] ≠ 0 := by
    norm_num [npVar, npMean, center, vecSq]
  exact ⟨by simp, ha, hb, scaled_fit_eq_corr [1, 2, 3] [1, 3, 2] (by simp) ha hb⟩

end DsCogNeuro
